import Mathlib

/-!
Verification of the content-addressed Merkle-DAG storage core
(`dag put`, `urlstore add`, peer-ID base58 codec) against its
natural-language specification.

The Go command code under `core/commands/dag/dag.go` and
`core/commands/urlstore.go` is shallowly embedded as pure Lean functions:
external collaborators (node parser, batch store, pin manager, HTTP client)
are modelled as oracle inputs, and every observable side effect (parse,
stage, emit, commit, pin-lock acquire/release, pin, flush) is recorded in an
event trace.
-/

namespace Spec2Proof

/-! ## Positional base conversion

Fuel-based little-endian digit expansion, used by the base58 and byte
(base-256) conversions of the peer-ID codec.  Fuel-structural recursion keeps
every function kernel-reducible. -/

/-- Little-endian digits of `n` in base `B`, with explicit fuel.
`natDigitsF B fuel n` is the digit list of `n` provided `n ≤ fuel`. -/
def natDigitsF (B : Nat) : Nat → Nat → List Nat
  | 0, _ => []
  | fuel + 1, n => if n = 0 then [] else n % B :: natDigitsF B fuel (n / B)

/-- Little-endian digits of `n` in base `B` (`n` itself is always enough fuel). -/
def natDigits (B n : Nat) : List Nat :=
  natDigitsF B n n

/-- Value of a little-endian digit list in base `B`. -/
def valOfDigits (B : Nat) : List Nat → Nat
  | [] => 0
  | d :: ds => d + B * valOfDigits B ds

/-- Whether the last digit of a little-endian digit list is nonzero
(equivalently: the list has no redundant high-order zero). -/
def lastNz : List Nat → Bool
  | [] => true
  | [d] => d != 0
  | _ :: ds => lastNz ds

theorem natDigitsF_zero (B : Nat) : ∀ fuel, natDigitsF B fuel 0 = [] := by
  intro fuel
  cases fuel <;> simp [natDigitsF]

theorem natDigitsF_ne_nil (B : Nat) {fuel n : Nat} (hn : 0 < n) (hf : n ≤ fuel) :
    natDigitsF B fuel n ≠ [] := by
  cases fuel with
  | zero => omega
  | succ f =>
    simp only [natDigitsF]
    rw [if_neg (by omega)]
    exact List.cons_ne_nil _ _

theorem valOfDigits_natDigitsF {B : Nat} (hB : 2 ≤ B) :
    ∀ fuel n, n ≤ fuel → valOfDigits B (natDigitsF B fuel n) = n := by
  intro fuel
  induction fuel with
  | zero => intro n hn; interval_cases n; simp [natDigitsF, valOfDigits]
  | succ f ih =>
    intro n hn
    by_cases h0 : n = 0
    · subst h0; simp [natDigitsF, valOfDigits]
    · have hdiv : n / B ≤ f := by
        have : n / B < n := Nat.div_lt_self (by omega) (by omega)
        omega
      simp only [natDigitsF, if_neg h0, valOfDigits]
      rw [ih _ hdiv, Nat.mod_add_div]

theorem natDigitsF_lt {B : Nat} (hB : 2 ≤ B) :
    ∀ fuel n d, d ∈ natDigitsF B fuel n → d < B := by
  intro fuel
  induction fuel with
  | zero => intro n d hd; simp [natDigitsF] at hd
  | succ f ih =>
    intro n d hd
    by_cases h0 : n = 0
    · subst h0; simp [natDigitsF] at hd
    · simp only [natDigitsF, if_neg h0, List.mem_cons] at hd
      rcases hd with h | h
      · subst h; exact Nat.mod_lt _ (by omega)
      · exact ih _ _ h

theorem lastNz_cons_of_ne_nil {d : Nat} {ds : List Nat} (h : ds ≠ []) :
    lastNz (d :: ds) = lastNz ds := by
  cases ds with
  | nil => exact absurd rfl h
  | cons e es => rfl

theorem lastNz_natDigitsF {B : Nat} (hB : 2 ≤ B) :
    ∀ fuel n, 0 < n → n ≤ fuel → lastNz (natDigitsF B fuel n) = true := by
  intro fuel
  induction fuel with
  | zero => intro n hn hf; omega
  | succ f ih =>
    intro n hn hf
    simp only [natDigitsF, if_neg (by omega : ¬ n = 0)]
    have hdlt : n / B < n := Nat.div_lt_self (by omega) (by omega)
    by_cases hd : n / B = 0
    · rw [hd, natDigitsF_zero]
      have hnB : n < B := (Nat.div_eq_zero_iff (by omega : 0 < B)).mp hd
      simp [lastNz, Nat.mod_eq_of_lt hnB]
      omega
    · have hdf : n / B ≤ f := by omega
      have hdpos : 0 < n / B := Nat.pos_of_ne_zero hd
      rw [lastNz_cons_of_ne_nil (natDigitsF_ne_nil B hdpos hdf)]
      exact ih _ hdpos hdf

theorem lastNz_append_singleton (ds : List Nat) (d : Nat) :
    lastNz (ds ++ [d]) = (d != 0) := by
  induction ds with
  | nil => rfl
  | cons e es ih =>
    rw [List.cons_append, lastNz_cons_of_ne_nil (by simp), ih]

theorem eq_nil_of_valOfDigits_eq_zero {B : Nat} (hB : 2 ≤ B) :
    ∀ ds, valOfDigits B ds = 0 → lastNz ds = true → ds = [] := by
  intro ds
  induction ds with
  | nil => intro _ _; rfl
  | cons d es ih =>
    intro hv hl
    exfalso
    simp only [valOfDigits] at hv
    have hd : d = 0 := by omega
    have hbv : B * valOfDigits B es = 0 := by omega
    have hes : valOfDigits B es = 0 := by
      rcases Nat.mul_eq_zero.mp hbv with h | h
      · omega
      · exact h
    cases es with
    | nil => subst hd; simp [lastNz] at hl
    | cons e es' =>
      rw [lastNz_cons_of_ne_nil (List.cons_ne_nil _ _)] at hl
      exact List.cons_ne_nil _ _ (ih hes hl)

theorem natDigitsF_valOfDigits {B : Nat} (hB : 2 ≤ B) :
    ∀ ds, (∀ d ∈ ds, d < B) → lastNz ds = true →
      ∀ fuel, valOfDigits B ds ≤ fuel → natDigitsF B fuel (valOfDigits B ds) = ds := by
  intro ds
  induction ds with
  | nil => intro _ _ fuel _; simpa [valOfDigits] using natDigitsF_zero B fuel
  | cons d es ih =>
    intro hlt hl fuel hf
    have hdB : d < B := hlt d (List.mem_cons_self d es)
    have hesB : ∀ x ∈ es, x < B := fun x hx => hlt x (List.mem_cons_of_mem d hx)
    simp only [valOfDigits] at hf ⊢
    have hpos : 0 < d + B * valOfDigits B es := by
      by_contra h
      have hd0 : d = 0 := by omega
      have hv0 : valOfDigits B es = 0 := by
        rcases Nat.mul_eq_zero.mp (by omega : B * valOfDigits B es = 0) with h | h
        · omega
        · exact h
      have hes : es = [] := by
        cases es with
        | nil => rfl
        | cons e es' =>
          rw [lastNz_cons_of_ne_nil (List.cons_ne_nil _ _)] at hl
          exact eq_nil_of_valOfDigits_eq_zero hB _ hv0 hl
      subst hes hd0
      simp [lastNz] at hl
    cases fuel with
    | zero => omega
    | succ f =>
      simp only [natDigitsF, if_neg (by omega : ¬ d + B * valOfDigits B es = 0)]
      have hmod : (d + B * valOfDigits B es) % B = d := by
        rw [Nat.add_mul_mod_self_left, Nat.mod_eq_of_lt hdB]
      have hdiv : (d + B * valOfDigits B es) / B = valOfDigits B es := by
        rw [Nat.add_mul_div_left _ _ (by omega : 0 < B), Nat.div_eq_of_lt hdB]
        omega
      rw [hmod, hdiv]
      congr 1
      have hlast : lastNz es = true := by
        cases es with
        | nil => rfl
        | cons e es' => rwa [lastNz_cons_of_ne_nil (List.cons_ne_nil _ _)] at hl
      apply ih hesB hlast
      have h2 : 2 * valOfDigits B es ≤ B * valOfDigits B es :=
        Nat.mul_le_mul_right _ hB
      omega

theorem valOfDigits_replicate_zero {B : Nat} :
    ∀ z, valOfDigits B (List.replicate z 0) = 0 := by
  intro z
  induction z with
  | zero => rfl
  | succ k ih => simp [List.replicate_succ, valOfDigits, ih]

theorem valOfDigits_append_zeros {B : Nat} :
    ∀ (ds : List Nat) (z : Nat), valOfDigits B (ds ++ List.replicate z 0) = valOfDigits B ds := by
  intro ds
  induction ds with
  | nil =>
    intro z
    simp [valOfDigits_replicate_zero, valOfDigits]
  | cons d es ih =>
    intro z
    have hsplit : (d :: es) ++ List.replicate z 0 = d :: (es ++ List.replicate z 0) := rfl
    rw [hsplit]
    show d + B * valOfDigits B (es ++ List.replicate z 0) = d + B * valOfDigits B es
    rw [ih]

/-! ## Base58 peer-ID codec

`IDB58Encode` / `IDB58Decode` from the peer package (`src/unnamed/part_000`)
delegate to `b58.Encode`, `mh.FromB58String` and `mh.Cast`, whose sources are
not under `src/`; those collaborators are modelled from the spec below.
A peer ID is modelled as its byte string: a `List Nat` of values `< 256`. -/

/-- Bitcoin base58 alphabet used by the b58 library. -/
def b58Alphabet : List Char :=
  ("123456789ABCDEFGHJKLMNPQRSTUVWXYZabcdefghijkmnopqrstuvwxyz".toList)

/-- Character for base58 digit `d`. -/
def b58Char (d : Nat) : Char :=
  b58Alphabet.getD d '1'

/-- Index of character `c` in a character list, if present. -/
def idxOfChar (c : Char) : List Char → Option Nat
  | [] => none
  | a :: as => if a = c then some 0 else Option.map (· + 1) (idxOfChar c as)

/-- Base58 digit value of a character, if it is an alphabet character. -/
def b58Val (c : Char) : Option Nat :=
  idxOfChar c b58Alphabet

/-- Digit values of a whole character string, failing on the first
non-alphabet character. -/
def b58Vals : List Char → Option (List Nat)
  | [] => some []
  | c :: cs => (b58Val c).bind fun v => (b58Vals cs).map fun vs => v :: vs

/-- Number of leading zero bytes of a byte string. -/
def clzBytes : List Nat → Nat
  | 0 :: bs => clzBytes bs + 1
  | _ => 0

/-- Number of leading `'1'` characters of a base58 string. -/
def clOnes : List Char → Nat
  | c :: cs => if c = '1' then clOnes cs + 1 else 0
  | [] => 0

/-- Modelled from the spec: the b58 library's `Encode` (not under `src/`).
Leading zero bytes become `'1'` characters; the remaining bytes are read as a
big-endian base-256 number and written in big-endian base58. -/
def b58Encode (bs : List Nat) : List Char :=
  List.replicate (clzBytes bs) '1' ++
    ((natDigits 58 (valOfDigits 256 bs.reverse)).reverse.map b58Char)

/-- Errors surfaced by base58 decoding and multihash validation. -/
inductive B58Err where
  | zeroLength : B58Err
  | invalidChar : B58Err
  | invalidMultihash : B58Err
deriving DecidableEq

/-- Modelled from the spec: the b58 library's `Decode` (not under `src/`).
Rejects the empty string and non-alphabet characters; leading `'1'`
characters become zero bytes; the digit string is read as a big-endian
base58 number and written in big-endian base 256. -/
def b58Decode (s : List Char) : Except B58Err (List Nat) :=
  match s with
  | [] => Except.error B58Err.zeroLength
  | _ =>
    match b58Vals s with
    | none => Except.error B58Err.invalidChar
    | some vs =>
      Except.ok (List.replicate (clOnes s) 0 ++
        (natDigits 256 (valOfDigits 58 vs.reverse)).reverse)

/-- Little-endian unsigned varint decoding (`binary.Uvarint`): returns the
value and the remaining bytes. -/
def uvarintAux : Nat → Nat → List Nat → Option (Nat × List Nat)
  | _, _, [] => none
  | shift, acc, b :: bs =>
    if b < 128 then some (acc + b * 2 ^ shift, bs)
    else uvarintAux (shift + 7) (acc + (b - 128) * 2 ^ shift) bs

/-- Unsigned varint decoding starting with shift 0 and accumulator 0. -/
def uvarint (bs : List Nat) : Option (Nat × List Nat) :=
  uvarintAux 0 0 bs

/-- Modelled from the spec: hash function codes the multihash registry knows
(identity, sha1, sha2/sha3 family, dbl-sha2-256, plus the application-code
range `0 < c < 0x10`). -/
def knownHashCodes : List Nat :=
  [0x00, 0x11, 0x12, 0x13, 0x14, 0x15, 0x16, 0x17, 0x18, 0x19, 0x1a, 0x1b, 0x22, 0x56]

/-- Whether a hash function code is acceptable to the multihash registry. -/
def validHashCode (c : Nat) : Bool :=
  (decide (0 < c) && decide (c < 16)) || knownHashCodes.contains c

/-- Modelled from the spec: multihash = (hash function id, digest); a valid
multihash byte string is `uvarint code ++ uvarint length ++ digest` with
`digest.length = length`, a known code, and at least two bytes
(go-multihash `Decode`/`Cast` are not under `src/`). -/
def isValidMultihash (bs : List Nat) : Bool :=
  match bs with
  | [] => false
  | [_] => false
  | _ =>
    match uvarint bs with
    | none => false
    | some (code, rest) =>
      match uvarint rest with
      | none => false
      | some (len, digest) => (digest.length == len) && validHashCode code

/-- IDB58Encode from the peer package: base58-encode the ID's bytes. -/
def IDB58Encode (id : List Nat) : List Char :=
  b58Encode id

/-- IDB58Decode from the peer package: `mh.FromB58String`, i.e. base58-decode
then validate the bytes as a multihash (`mh.Cast`), returning the bytes. -/
def IDB58Decode (s : List Char) : Except B58Err (List Nat) :=
  match b58Decode s with
  | Except.error e => Except.error e
  | Except.ok bs =>
    if isValidMultihash bs then Except.ok bs else Except.error B58Err.invalidMultihash

theorem b58Val_b58Char : ∀ d, d < 58 → b58Val (b58Char d) = some d := by
  decide

theorem b58Char_ne_one : ∀ d, d < 58 → d ≠ 0 → b58Char d ≠ '1' := by
  decide

theorem b58Vals_append {xs ys : List Char} {vx vy : List Nat}
    (hx : b58Vals xs = some vx) (hy : b58Vals ys = some vy) :
    b58Vals (xs ++ ys) = some (vx ++ vy) := by
  induction xs generalizing vx with
  | nil =>
    simp only [b58Vals, Option.some.injEq] at hx
    subst hx
    simpa using hy
  | cons c cs ih =>
    simp only [b58Vals] at hx
    cases hv : b58Val c with
    | none => rw [hv] at hx; simp at hx
    | some v =>
      rw [hv] at hx
      simp only [Option.bind] at hx
      cases hvs : b58Vals cs with
      | none => rw [hvs] at hx; simp [Option.map] at hx
      | some vs =>
        rw [hvs] at hx
        simp only [Option.map, Option.some.injEq] at hx
        subst hx
        rw [List.cons_append]
        simp only [b58Vals]
        rw [hv]
        simp only [Option.bind]
        rw [ih hvs]
        simp [Option.map]

theorem b58Vals_replicate_one (z : Nat) :
    b58Vals (List.replicate z '1') = some (List.replicate z 0) := by
  induction z with
  | zero => rfl
  | succ k ih =>
    rw [List.replicate_succ]
    simp only [b58Vals]
    rw [show b58Val '1' = some 0 from rfl]
    simp only [Option.bind]
    rw [ih]
    simp [Option.map, List.replicate_succ]

theorem b58Vals_map_b58Char {ds : List Nat} (h : ∀ d ∈ ds, d < 58) :
    b58Vals (ds.map b58Char) = some ds := by
  induction ds with
  | nil => rfl
  | cons d es ih =>
    rw [List.map_cons]
    simp only [b58Vals]
    rw [b58Val_b58Char d (h d (List.mem_cons_self d es))]
    simp only [Option.bind]
    rw [ih (fun x hx => h x (List.mem_cons_of_mem d hx))]
    simp [Option.map]

theorem clOnes_replicate_append (z : Nat) (cs : List Char) :
    clOnes (List.replicate z '1' ++ cs) = z + clOnes cs := by
  induction z with
  | zero => simp [List.replicate]
  | succ k ih =>
    rw [List.replicate_succ, List.cons_append]
    show (if ('1' : Char) = '1' then clOnes (List.replicate k '1' ++ cs) + 1 else 0) =
      (k + 1) + clOnes cs
    rw [if_pos rfl, ih]
    omega

theorem clzBytes_split :
    ∀ bs : List Nat, ∃ rest, bs = List.replicate (clzBytes bs) 0 ++ rest ∧
      rest.head? ≠ some 0 := by
  intro bs
  induction bs with
  | nil => exact ⟨[], by simp [clzBytes]⟩
  | cons b bs ih =>
    cases b with
    | zero =>
      obtain ⟨rest, heq, hh⟩ := ih
      refine ⟨rest, ?_, hh⟩
      show 0 :: bs = List.replicate (clzBytes bs + 1) 0 ++ rest
      rw [List.replicate_succ, List.cons_append]
      exact congrArg (0 :: ·) heq
    | succ n =>
      refine ⟨(n + 1) :: bs, ?_, by simp⟩
      simp [clzBytes, List.replicate]

theorem head_reverse_nz {ds : List Nat} {d : Nat} {tl : List Nat}
    (hl : lastNz ds = true) (hrev : ds.reverse = d :: tl) : d ≠ 0 := by
  have hds : ds = (d :: tl).reverse := by
    rw [← hrev, List.reverse_reverse]
  rw [hds] at hl
  simp only [List.reverse_cons] at hl
  rw [lastNz_append_singleton] at hl
  simpa using hl

theorem b58_roundtrip (id : List Nat) (hne : id ≠ [])
    (hbytes : ∀ b ∈ id, b < 256) :
    b58Decode (b58Encode id) = Except.ok id := by
  obtain ⟨rest, hsplit, hh⟩ := clzBytes_split id
  set z := clzBytes id with hz
  set n := valOfDigits 256 id.reverse with hn
  have hrest_lt : ∀ b ∈ rest, b < 256 := by
    intro b hb
    exact hbytes b (by rw [hsplit]; exact List.mem_append_right _ hb)
  have hrevid : id.reverse = rest.reverse ++ List.replicate z 0 := by
    rw [hsplit, List.reverse_append, List.reverse_replicate]
  have hnrest : n = valOfDigits 256 rest.reverse := by
    rw [hn, hrevid, valOfDigits_append_zeros]
  have hlast_rest : lastNz rest.reverse = true := by
    cases hr : rest with
    | nil => simp [lastNz]
    | cons r rs =>
      rw [List.reverse_cons, lastNz_append_singleton]
      have : r ≠ 0 := by
        intro h0
        apply hh
        rw [hr, h0]
        rfl
      simpa using this
  -- digits of n in base 58
  have hd58lt : ∀ d ∈ natDigits 58 n, d < 58 :=
    fun d hd => natDigitsF_lt (by omega) _ _ _ hd
  have hd58rev_lt : ∀ d ∈ (natDigits 58 n).reverse, d < 58 := by
    intro d hd
    exact hd58lt d (List.mem_reverse.mp hd)
  -- the encoded string and its digit values
  have hvals : b58Vals (b58Encode id) =
      some (List.replicate z 0 ++ (natDigits 58 n).reverse) := by
    unfold b58Encode
    rw [← hz, ← hn]
    exact b58Vals_append (b58Vals_replicate_one z) (b58Vals_map_b58Char hd58rev_lt)
  -- the encoded string is nonempty
  have hne_enc : b58Encode id ≠ [] := by
    unfold b58Encode
    rw [← hz, ← hn]
    intro hcontra
    rcases List.append_eq_nil.mp hcontra with ⟨h1, h2⟩
    have hz0 : z = 0 := by simpa using congrArg List.length h1
    have hrest_ne : rest ≠ [] := by
      intro h0
      apply hne
      rw [hsplit, h0, hz0]
      rfl
    have hnpos : 0 < n := by
      rcases Nat.eq_zero_or_pos n with h0 | hpos
      · exfalso
        have := eq_nil_of_valOfDigits_eq_zero (by omega : (2:Nat) ≤ 256) rest.reverse
          (by rw [← hnrest, h0]) hlast_rest
        exact hrest_ne (by simpa using congrArg List.reverse this)
      · exact hpos
    have : natDigits 58 n ≠ [] := natDigitsF_ne_nil 58 hnpos (le_refl n)
    simp only [List.map_eq_nil_iff, List.reverse_eq_nil_iff] at h2
    exact this h2
  -- leading '1' count of the encoded string
  have hclones : clOnes (b58Encode id) = z := by
    unfold b58Encode
    rw [← hz, ← hn, clOnes_replicate_append]
    rcases hds : (natDigits 58 n).reverse with _ | ⟨d0, dtl⟩
    · simp [clOnes]
    · have hnpos : 0 < n := by
        rcases Nat.eq_zero_or_pos n with h0 | hpos
        · exfalso
          have : natDigits 58 n = [] := by
            rw [h0]
            exact natDigitsF_zero 58 0
          rw [this] at hds
          simp at hds
        · exact hpos
      have hd0ne : d0 ≠ 0 :=
        head_reverse_nz (lastNz_natDigitsF (by omega) n n hnpos (le_refl n)) hds
      have hd0lt : d0 < 58 := hd58rev_lt d0 (by rw [hds]; exact List.mem_cons_self _ _)
      simp only [List.map_cons, clOnes, if_neg (b58Char_ne_one d0 hd0lt hd0ne)]
      omega
  -- assemble the decode
  unfold b58Decode
  rcases henc : b58Encode id with _ | ⟨c0, ctl⟩
  · exact absurd henc hne_enc
  · rw [← henc]
    have hvals2 : b58Vals (b58Encode id) =
        some (List.replicate z 0 ++ (natDigits 58 n).reverse) := hvals
    rw [henc] at hvals2 ⊢
    simp only [hvals2]
    have hval58 : valOfDigits 58
        ((List.replicate z 0 ++ (natDigits 58 n).reverse)).reverse = n := by
      rw [List.reverse_append, List.reverse_reverse, List.reverse_replicate,
        valOfDigits_append_zeros]
      exact valOfDigits_natDigitsF (by omega) n n (le_refl n)
    have hd256 : natDigits 256 n = rest.reverse := by
      rw [hnrest]
      exact natDigitsF_valOfDigits (by omega)
        rest.reverse (fun d hd => hrest_lt d (List.mem_reverse.mp hd)) hlast_rest
        (valOfDigits 256 rest.reverse) (le_refl _)
    rw [← henc, hclones, hval58, hd256, List.reverse_reverse, ← hsplit]

theorem isValidMultihash_ne_nil {bs : List Nat} (h : isValidMultihash bs = true) :
    bs ≠ [] := by
  intro h0
  rw [h0] at h
  simp [isValidMultihash] at h

/-! ## DagPut embedding

Shallow embedding of `DagPutCmd.Run` and its inner `addAllAndPin` closure
(`src/core/commands/dag/dag.go`).  External collaborators are oracles:
`ParseInputs` outcomes are given per input file, `Batch.Add` / `Commit` /
`Flush` success is given per call, and the `select` on the caller's context
is given per file.  Nodes are identified by their CIDs (`Nat`). -/

/-- Observable events of a run, in order of occurrence. -/
inductive Ev where
  | parse : Nat → Ev
  | stage : Nat → Ev
  | emit : Nat → Ev
  | commit : Ev
  | lock : Ev
  | unlock : Ev
  | pinRec : Nat → Ev
  | flush : Ev
  | build : Ev
deriving DecidableEq

/-- Outcome of `f.NextFile()` plus `coredag.ParseInputs` for one input unit:
a non-EOF `NextFile` error, a parse error, or the parsed nodes' CIDs in
source document order. -/
inductive FileOutcome where
  | nextErr : FileOutcome
  | badParse : FileOutcome
  | nodes : List Nat → FileOutcome
deriving DecidableEq

/-- Error taxonomy of the DagPut command path. -/
inductive DagErr where
  | nodeFailed : DagErr
  | invalidHashName : String → DagErr
  | nextFileFailed : DagErr
  | parseFailed : DagErr
  | noNodes : DagErr
  | addFailed : DagErr
  | commitFailed : DagErr
  | flushFailed : DagErr
deriving DecidableEq

/-- Oracle for the external collaborators of one DagPut run. -/
structure DagOracle where
  nodeOk : Bool
  addOk : Nat → Bool
  cancel : Nat → Bool
  commitOk : Bool
  flushOk : Bool

/-- Mutable state of the producer goroutine: the `cid.NewSet()` contents (in
insertion order), the CIDs sent to `outChan`, and the event trace. -/
structure DagSt where
  cids : List Nat
  emitted : List Nat
  trace : List Ev
deriving DecidableEq

/-- Append one event to the trace. -/
def push (st : DagSt) (e : Ev) : DagSt :=
  { st with trace := st.trace ++ [e] }

/-- `cid.Set.Add`: insert if not already present. -/
def addToSet (s : List Nat) (c : Nat) : List Nat :=
  if c ∈ s then s else s ++ [c]

/-- Stage every parsed node into the batch (`b.Add(nd)` loop), stopping at
the first failing add. -/
def stageNodes (addOk : Nat → Bool) : List Nat → DagSt → Option DagErr × DagSt
  | [], st => (none, st)
  | n :: ns, st =>
    let st1 := push st (Ev.stage n)
    if addOk n then stageNodes addOk ns st1 else (some DagErr.addFailed, st1)

/-- How the producer's file loop ended: EOF reached, context cancelled while
queuing, or an error. -/
inductive LoopRes where
  | done : LoopRes
  | cancelled : LoopRes
  | failed : DagErr → LoopRes
deriving DecidableEq

/-- The `for { f.NextFile() ... }` loop of `addAllAndPin`, file by file.
Per file: parse, fail on zero nodes, stage all nodes, record the first
node's CID in the set, then either cancel (context done) or emit it. -/
def dagLoop (oc : DagOracle) : Nat → List FileOutcome → DagSt → LoopRes × DagSt
  | _, [], st => (LoopRes.done, st)
  | _, FileOutcome.nextErr :: _, st => (LoopRes.failed DagErr.nextFileFailed, st)
  | i, FileOutcome.badParse :: _, st => (LoopRes.failed DagErr.parseFailed, push st (Ev.parse i))
  | i, FileOutcome.nodes [] :: _, st => (LoopRes.failed DagErr.noNodes, push st (Ev.parse i))
  | i, FileOutcome.nodes (c :: cs) :: fs, st =>
    let p := stageNodes oc.addOk (c :: cs) (push st (Ev.parse i))
    match p.1 with
    | some e => (LoopRes.failed e, p.2)
    | none =>
      let st3 := { p.2 with cids := addToSet p.2.cids c }
      if oc.cancel i then (LoopRes.cancelled, st3)
      else dagLoop oc (i + 1) fs (push { st3 with emitted := st3.emitted ++ [c] } (Ev.emit c))

/-- The `addAllAndPin` closure: run the file loop, commit the batch, and on
`pin=true` take the pin lock, recursively pin every collected CID, flush the
pin set, and (deferred) release the lock on every exit path. -/
def addAllAndPin (oc : DagOracle) (dopin : Bool) (files : List FileOutcome) :
    Except DagErr Unit × DagSt :=
  let p := dagLoop oc 0 files ⟨[], [], []⟩
  match p.1 with
  | LoopRes.failed e => (Except.error e, p.2)
  | LoopRes.cancelled => (Except.ok (), p.2)
  | LoopRes.done =>
    let st1 := push p.2 Ev.commit
    if oc.commitOk then
      if dopin then
        let st2 := push st1 Ev.lock
        let st3 := { st2 with trace := st2.trace ++ st2.cids.map Ev.pinRec }
        let st4 := push st3 Ev.flush
        if oc.flushOk then (Except.ok (), push st4 Ev.unlock)
        else (Except.error DagErr.flushFailed, push st4 Ev.unlock)
      else (Except.ok (), st1)
    else (Except.error DagErr.commitFailed, st1)

/-- Observable outcome of one DagPut invocation. -/
structure RunOut where
  result : Except DagErr Unit
  emitted : List Nat
  trace : List Ev

/-- `DagPutCmd.Run`: get the node, validate the requested hash-function name
against the multihash name table (`names`), then run `addAllAndPin`. -/
def dagPutRun (names : List String) (hash : String) (dopin : Bool)
    (oc : DagOracle) (files : List FileOutcome) : RunOut :=
  if ¬ oc.nodeOk then ⟨Except.error DagErr.nodeFailed, [], []⟩
  else if hash ≠ "" ∧ hash ∉ names then ⟨Except.error (DagErr.invalidHashName hash), [], []⟩
  else
    ⟨(addAllAndPin oc dopin files).1, (addAllAndPin oc dopin files).2.emitted,
      (addAllAndPin oc dopin files).2.trace⟩

/-! ## UrlAdd embedding

Shallow embedding of `urlAdd.Run` (`src/core/commands/urlstore.go`).  The
HTTP client, config, chunker and layout builder are oracles; the root CID is
the layout result. -/

/-- Error taxonomy of the UrlAdd command path.  `badStatus` carries the
observed HTTP status code. -/
inductive UrlErr where
  | nodeFailed : UrlErr
  | unsupportedUrl : UrlErr
  | configFailed : UrlErr
  | notEnabled : UrlErr
  | requestFailed : UrlErr
  | httpFailed : UrlErr
  | badStatus : Nat → UrlErr
  | buildFailed : UrlErr
  | flushFailed : UrlErr
deriving DecidableEq

/-- Oracle for the external collaborators of one UrlAdd run.  `buildRes`
takes the use-trickle flag (the layout strategy chosen) and yields the root
CID, or a build error. -/
structure UrlOracle where
  nodeOk : Bool
  isUrl : Bool
  cfgOk : Bool
  enabled : Bool
  reqOk : Bool
  doOk : Bool
  status : Nat
  contentLength : Int
  buildRes : Bool → Except Unit Nat
  flushOk : Bool

/-- The `{Cid, Size}` record UrlAdd emits (`BlockStat`); the CID is kept as
a `Nat`, `size` is `int(hres.ContentLength)`. -/
structure BlockStat where
  key : Nat
  size : Int
deriving DecidableEq

/-- `urlAdd.Run`: node, URL-syntax, config and experiment gates; HTTP
request and response; status check; on `pin=true` acquire the pin lock
(released on every later exit path); chunk and build the DAG (balanced or
trickle); pin recursively and flush; emit `{Cid, Size}`. -/
def urlAddRun (o : UrlOracle) (useTrickle dopin : Bool) :
    Except UrlErr BlockStat × List Ev :=
  if ¬ o.nodeOk then (Except.error UrlErr.nodeFailed, [])
  else if ¬ o.isUrl then (Except.error UrlErr.unsupportedUrl, [])
  else if ¬ o.cfgOk then (Except.error UrlErr.configFailed, [])
  else if ¬ o.enabled then (Except.error UrlErr.notEnabled, [])
  else if ¬ o.reqOk then (Except.error UrlErr.requestFailed, [])
  else if ¬ o.doOk then (Except.error UrlErr.httpFailed, [])
  else if o.status ≠ 200 then (Except.error (UrlErr.badStatus o.status), [])
  else
    let t1 := (if dopin then [Ev.lock] else []) ++ [Ev.build]
    match o.buildRes useTrickle with
    | Except.error _ =>
      (Except.error UrlErr.buildFailed, t1 ++ if dopin then [Ev.unlock] else [])
    | Except.ok root =>
      if dopin then
        let t2 := t1 ++ [Ev.pinRec root, Ev.flush]
        if o.flushOk then (Except.ok ⟨root, o.contentLength⟩, t2 ++ [Ev.unlock])
        else (Except.error UrlErr.flushFailed, t2 ++ [Ev.unlock])
      else (Except.ok ⟨root, o.contentLength⟩, t1)

/-! ## Trace predicates -/

/-- Number of pin-lock acquisitions in a trace. -/
def countLocks : List Ev → Nat
  | [] => 0
  | Ev.lock :: t => countLocks t + 1
  | _ :: t => countLocks t

/-- Number of pin-lock releases in a trace. -/
def countUnlocks : List Ev → Nat
  | [] => 0
  | Ev.unlock :: t => countUnlocks t + 1
  | _ :: t => countUnlocks t

/-- Scanning a trace at lock depth `d`, every pin-set mutation (`pinRec` or
`flush`) happens at positive depth, i.e. while the pin lock is held. -/
def pinsLocked : Nat → List Ev → Bool
  | d, Ev.lock :: t => pinsLocked (d + 1) t
  | d, Ev.unlock :: t => pinsLocked (d - 1) t
  | d, Ev.pinRec _ :: t => (d != 0) && pinsLocked d t
  | d, Ev.flush :: t => (d != 0) && pinsLocked d t
  | d, _ :: t => pinsLocked d t
  | _, [] => true

/-- Events the producer's file loop can generate (no lock traffic, no
pin-set mutation, no commit). -/
def producerEv : Ev → Bool
  | Ev.parse _ => true
  | Ev.stage _ => true
  | Ev.emit _ => true
  | _ => false

/-- A trace free of pin-set mutation. -/
def pinFree : List Ev → Bool
  | [] => true
  | Ev.pinRec _ :: _ => false
  | Ev.flush :: _ => false
  | _ :: t => pinFree t

/-- First parsed node's CID of every input unit, provided each unit parses
to a nonempty node list; `none` otherwise. -/
def firstCids : List FileOutcome → Option (List Nat)
  | [] => some []
  | FileOutcome.nodes (c :: _) :: fs => (firstCids fs).map (fun l => c :: l)
  | _ => none

/-- All parsed nodes' CIDs of every unit, in source document order.  This is
what the spec's words describe as the emitted sequence (one `{Cid}` per
parsed root). -/
def allRootCids : List FileOutcome → List Nat
  | [] => []
  | FileOutcome.nodes nds :: fs => nds ++ allRootCids fs
  | _ :: fs => allRootCids fs

/-- Input units starting at position `i` that the producer processes without
error or cancellation: each parses to a nonempty node list, every node
stages successfully, and the context is not cancelled at that position. -/
def cleanUnits (oc : DagOracle) : Nat → List FileOutcome → Bool
  | _, [] => true
  | i, FileOutcome.nodes (c :: cs) :: fs =>
    (c :: cs).all oc.addOk && !oc.cancel i && cleanUnits oc (i + 1) fs
  | _, _ => false

/-- Total variant of `firstCids`, defined on all inputs. -/
def firstCidsD : List FileOutcome → List Nat
  | [] => []
  | FileOutcome.nodes (c :: _) :: fs => c :: firstCidsD fs
  | _ :: fs => firstCidsD fs

/-! ## Support lemmas -/

theorem countLocks_append (xs ys : List Ev) :
    countLocks (xs ++ ys) = countLocks xs + countLocks ys := by
  induction xs with
  | nil => simp [countLocks]
  | cons e t ih =>
    cases e <;> simp [countLocks, ih] <;> omega

theorem countUnlocks_append (xs ys : List Ev) :
    countUnlocks (xs ++ ys) = countUnlocks xs + countUnlocks ys := by
  induction xs with
  | nil => simp [countUnlocks]
  | cons e t ih =>
    cases e <;> simp [countUnlocks, ih] <;> omega

theorem countLocks_of_producer {xs : List Ev}
    (h : ∀ e ∈ xs, e ∈ ([] : List Ev) ∨ producerEv e = true) : countLocks xs = 0 := by
  induction xs with
  | nil => rfl
  | cons e t ih =>
    have he := h e (List.mem_cons_self e t)
    have ht : ∀ x ∈ t, x ∈ ([] : List Ev) ∨ producerEv x = true :=
      fun x hx => h x (List.mem_cons_of_mem e hx)
    rcases he with he | he
    · simp at he
    · cases e <;> simp [producerEv] at he <;> simp [countLocks, ih ht]

theorem countUnlocks_of_producer {xs : List Ev}
    (h : ∀ e ∈ xs, e ∈ ([] : List Ev) ∨ producerEv e = true) : countUnlocks xs = 0 := by
  induction xs with
  | nil => rfl
  | cons e t ih =>
    have he := h e (List.mem_cons_self e t)
    have ht : ∀ x ∈ t, x ∈ ([] : List Ev) ∨ producerEv x = true :=
      fun x hx => h x (List.mem_cons_of_mem e hx)
    rcases he with he | he
    · simp at he
    · cases e <;> simp [producerEv] at he <;> simp [countUnlocks, ih ht]

theorem pinsLocked_append_producer {xs : List Ev}
    (h : ∀ e ∈ xs, e ∈ ([] : List Ev) ∨ producerEv e = true) (d : Nat) (ys : List Ev) :
    pinsLocked d (xs ++ ys) = pinsLocked d ys := by
  induction xs with
  | nil => rfl
  | cons e t ih =>
    have he := h e (List.mem_cons_self e t)
    have ht : ∀ x ∈ t, x ∈ ([] : List Ev) ∨ producerEv x = true :=
      fun x hx => h x (List.mem_cons_of_mem e hx)
    rcases he with he | he
    · simp at he
    · cases e <;> simp [producerEv] at he <;> simp [pinsLocked, ih ht]

theorem pinFree_of_producer {xs : List Ev}
    (h : ∀ e ∈ xs, e ∈ ([] : List Ev) ∨ producerEv e = true) : pinFree xs = true := by
  induction xs with
  | nil => rfl
  | cons e t ih =>
    have he := h e (List.mem_cons_self e t)
    have ht : ∀ x ∈ t, x ∈ ([] : List Ev) ∨ producerEv x = true :=
      fun x hx => h x (List.mem_cons_of_mem e hx)
    rcases he with he | he
    · simp at he
    · cases e <;> simp [producerEv] at he <;> simp [pinFree, ih ht]

theorem pinsLocked_pins (cs : List Nat) {d : Nat} (hd : d ≠ 0) {ys : List Ev}
    (h : pinsLocked d ys = true) : pinsLocked d (cs.map Ev.pinRec ++ ys) = true := by
  induction cs with
  | nil => simpa using h
  | cons c t ih =>
    simp only [List.map_cons, List.cons_append, pinsLocked]
    rw [Bool.and_eq_true]
    exact ⟨by simpa using hd, ih⟩

theorem stageNodes_cids (addOk : Nat → Bool) :
    ∀ ns st, (stageNodes addOk ns st).2.cids = st.cids := by
  intro ns
  induction ns with
  | nil => intro st; rfl
  | cons n t ih =>
    intro st
    simp only [stageNodes]
    by_cases h : addOk n
    · rw [if_pos h]; exact ih _
    · rw [if_neg h]; rfl

theorem stageNodes_emitted (addOk : Nat → Bool) :
    ∀ ns st, (stageNodes addOk ns st).2.emitted = st.emitted := by
  intro ns
  induction ns with
  | nil => intro st; rfl
  | cons n t ih =>
    intro st
    simp only [stageNodes]
    by_cases h : addOk n
    · rw [if_pos h]; exact ih _
    · rw [if_neg h]; rfl

theorem stageNodes_trace (addOk : Nat → Bool) :
    ∀ ns st e, e ∈ (stageNodes addOk ns st).2.trace →
      e ∈ st.trace ∨ producerEv e = true := by
  intro ns
  induction ns with
  | nil => intro st e he; exact Or.inl he
  | cons n t ih =>
    intro st e he
    simp only [stageNodes] at he
    by_cases h : addOk n
    · rw [if_pos h] at he
      rcases ih _ e he with h1 | h1
      · simp only [push, List.mem_append, List.mem_singleton] at h1
        rcases h1 with h1 | h1
        · exact Or.inl h1
        · subst h1; exact Or.inr rfl
      · exact Or.inr h1
    · rw [if_neg h] at he
      simp only [push, List.mem_append, List.mem_singleton] at he
      rcases he with h1 | h1
      · exact Or.inl h1
      · subst h1; exact Or.inr rfl

theorem stageNodes_all_ok {addOk : Nat → Bool} :
    ∀ {ns : List Nat}, ns.all addOk = true → ∀ st,
      stageNodes addOk ns st = (none, { st with trace := st.trace ++ ns.map Ev.stage }) := by
  intro ns
  induction ns with
  | nil => intro _ st; simp [stageNodes]
  | cons n t ih =>
    intro h st
    rw [List.all_cons, Bool.and_eq_true] at h
    simp only [stageNodes, if_pos h.1]
    rw [ih h.2]
    simp [push, List.append_assoc]

theorem addToSet_mem_of_mem {s : List Nat} {x : Nat} (c : Nat) (h : x ∈ s) :
    x ∈ addToSet s c := by
  unfold addToSet
  by_cases hc : c ∈ s
  · rwa [if_pos hc]
  · rw [if_neg hc]; exact List.mem_append_left _ h

theorem addToSet_mem_self (s : List Nat) (c : Nat) : c ∈ addToSet s c := by
  unfold addToSet
  by_cases hc : c ∈ s
  · rwa [if_pos hc]
  · rw [if_neg hc]; exact List.mem_append_right _ (List.mem_singleton.mpr rfl)

theorem dagLoop_trace (oc : DagOracle) :
    ∀ fs i st e, e ∈ (dagLoop oc i fs st).2.trace → e ∈ st.trace ∨ producerEv e = true := by
  intro fs
  induction fs with
  | nil => intro i st e he; exact Or.inl he
  | cons f t ih =>
    intro i st e he
    cases f with
    | nextErr => exact Or.inl he
    | badParse =>
      simp only [dagLoop, push, List.mem_append, List.mem_singleton] at he
      rcases he with h | h
      · exact Or.inl h
      · subst h; exact Or.inr rfl
    | nodes nds =>
      cases nds with
      | nil =>
        simp only [dagLoop, push, List.mem_append, List.mem_singleton] at he
        rcases he with h | h
        · exact Or.inl h
        · subst h; exact Or.inr rfl
      | cons c cs =>
        simp only [dagLoop] at he
        have hst2 : ∀ x, x ∈ (stageNodes oc.addOk (c :: cs) (push st (Ev.parse i))).2.trace →
            x ∈ st.trace ∨ producerEv x = true := by
          intro x hx
          rcases stageNodes_trace oc.addOk (c :: cs) (push st (Ev.parse i)) x hx with h1 | h1
          · simp only [push, List.mem_append, List.mem_singleton] at h1
            rcases h1 with h1 | h1
            · exact Or.inl h1
            · subst h1; exact Or.inr rfl
          · exact Or.inr h1
        split at he
        · exact hst2 e he
        · split at he
          · exact hst2 e he
          · rcases ih (i + 1) _ e he with h | h
            · simp only [push, List.mem_append, List.mem_singleton] at h
              rcases h with h | h
              · exact hst2 e h
              · subst h; exact Or.inr rfl
            · exact Or.inr h

theorem dagLoop_emit_sub (oc : DagOracle) :
    ∀ fs i st, (∀ c ∈ st.emitted, c ∈ st.cids) →
      ∀ c ∈ (dagLoop oc i fs st).2.emitted, c ∈ (dagLoop oc i fs st).2.cids := by
  intro fs
  induction fs with
  | nil => intro i st h c hc; exact h c hc
  | cons f t ih =>
    intro i st h c hc
    cases f with
    | nextErr => exact h c hc
    | badParse => exact h c hc
    | nodes nds =>
      cases nds with
      | nil => exact h c hc
      | cons c0 cs =>
        have hcids : (stageNodes oc.addOk (c0 :: cs) (push st (Ev.parse i))).2.cids = st.cids :=
          stageNodes_cids oc.addOk (c0 :: cs) (push st (Ev.parse i))
        have hemit : (stageNodes oc.addOk (c0 :: cs) (push st (Ev.parse i))).2.emitted
            = st.emitted :=
          stageNodes_emitted oc.addOk (c0 :: cs) (push st (Ev.parse i))
        simp only [dagLoop] at hc ⊢
        cases hq : (stageNodes oc.addOk (c0 :: cs) (push st (Ev.parse i))).1 with
        | some err =>
          rw [hq] at hc
          replace hc : c ∈ (stageNodes oc.addOk (c0 :: cs) (push st (Ev.parse i))).2.emitted := hc
          show c ∈ (stageNodes oc.addOk (c0 :: cs) (push st (Ev.parse i))).2.cids
          rw [hcids]
          rw [hemit] at hc
          exact h c hc
        | none =>
          rw [hq] at hc
          by_cases hcl : oc.cancel i = true
          · replace hc : c ∈ (stageNodes oc.addOk (c0 :: cs) (push st (Ev.parse i))).2.emitted := by
              have hc2 : c ∈ (if oc.cancel i = true then
                  (LoopRes.cancelled,
                    { (stageNodes oc.addOk (c0 :: cs) (push st (Ev.parse i))).2 with
                      cids := addToSet
                        (stageNodes oc.addOk (c0 :: cs) (push st (Ev.parse i))).2.cids c0 })
                else dagLoop oc (i + 1) t
                  (push { (stageNodes oc.addOk (c0 :: cs) (push st (Ev.parse i))).2 with
                      cids := addToSet
                        (stageNodes oc.addOk (c0 :: cs) (push st (Ev.parse i))).2.cids c0,
                      emitted := (stageNodes oc.addOk (c0 :: cs)
                        (push st (Ev.parse i))).2.emitted ++ [c0] }
                    (Ev.emit c0))).2.emitted := hc
              rw [if_pos hcl] at hc2
              exact hc2
            show c ∈ (if oc.cancel i = true then
                (LoopRes.cancelled,
                  { (stageNodes oc.addOk (c0 :: cs) (push st (Ev.parse i))).2 with
                    cids := addToSet
                      (stageNodes oc.addOk (c0 :: cs) (push st (Ev.parse i))).2.cids c0 })
              else dagLoop oc (i + 1) t
                (push { (stageNodes oc.addOk (c0 :: cs) (push st (Ev.parse i))).2 with
                    cids := addToSet
                      (stageNodes oc.addOk (c0 :: cs) (push st (Ev.parse i))).2.cids c0,
                    emitted := (stageNodes oc.addOk (c0 :: cs)
                      (push st (Ev.parse i))).2.emitted ++ [c0] }
                  (Ev.emit c0))).2.cids
            rw [if_pos hcl]
            show c ∈ addToSet (stageNodes oc.addOk (c0 :: cs) (push st (Ev.parse i))).2.cids c0
            rw [hcids]
            rw [hemit] at hc
            exact addToSet_mem_of_mem c0 (h c hc)
          · replace hc : c ∈ (dagLoop oc (i + 1) t
                (push { (stageNodes oc.addOk (c0 :: cs) (push st (Ev.parse i))).2 with
                    cids := addToSet
                      (stageNodes oc.addOk (c0 :: cs) (push st (Ev.parse i))).2.cids c0,
                    emitted := (stageNodes oc.addOk (c0 :: cs)
                      (push st (Ev.parse i))).2.emitted ++ [c0] }
                  (Ev.emit c0))).2.emitted := by
              have hc2 : c ∈ (if oc.cancel i = true then
                  (LoopRes.cancelled,
                    { (stageNodes oc.addOk (c0 :: cs) (push st (Ev.parse i))).2 with
                      cids := addToSet
                        (stageNodes oc.addOk (c0 :: cs) (push st (Ev.parse i))).2.cids c0 })
                else dagLoop oc (i + 1) t
                  (push { (stageNodes oc.addOk (c0 :: cs) (push st (Ev.parse i))).2 with
                      cids := addToSet
                        (stageNodes oc.addOk (c0 :: cs) (push st (Ev.parse i))).2.cids c0,
                      emitted := (stageNodes oc.addOk (c0 :: cs)
                        (push st (Ev.parse i))).2.emitted ++ [c0] }
                    (Ev.emit c0))).2.emitted := hc
              rw [if_neg hcl] at hc2
              exact hc2
            show c ∈ (if oc.cancel i = true then
                (LoopRes.cancelled,
                  { (stageNodes oc.addOk (c0 :: cs) (push st (Ev.parse i))).2 with
                    cids := addToSet
                      (stageNodes oc.addOk (c0 :: cs) (push st (Ev.parse i))).2.cids c0 })
              else dagLoop oc (i + 1) t
                (push { (stageNodes oc.addOk (c0 :: cs) (push st (Ev.parse i))).2 with
                    cids := addToSet
                      (stageNodes oc.addOk (c0 :: cs) (push st (Ev.parse i))).2.cids c0,
                    emitted := (stageNodes oc.addOk (c0 :: cs)
                      (push st (Ev.parse i))).2.emitted ++ [c0] }
                  (Ev.emit c0))).2.cids
            rw [if_neg hcl]
            refine ih (i + 1) _ ?_ c hc
            intro x hx
            replace hx : x ∈ (stageNodes oc.addOk (c0 :: cs)
                (push st (Ev.parse i))).2.emitted ++ [c0] := hx
            rw [hemit] at hx
            show x ∈ addToSet (stageNodes oc.addOk (c0 :: cs) (push st (Ev.parse i))).2.cids c0
            rw [hcids]
            rcases List.mem_append.mp hx with hx | hx
            · exact addToSet_mem_of_mem c0 (h x hx)
            · rw [List.mem_singleton.mp hx]; exact addToSet_mem_self _ _

theorem dagLoop_done_emitted (oc : DagOracle) (hnc : ∀ i, oc.cancel i = false) :
    ∀ fs i st st', dagLoop oc i fs st = (LoopRes.done, st') →
      firstCids fs = some (firstCidsD fs) ∧ st'.emitted = st.emitted ++ firstCidsD fs := by
  intro fs
  induction fs with
  | nil =>
    intro i st st' h
    simp only [dagLoop, Prod.mk.injEq] at h
    exact ⟨rfl, by rw [← h.2]; simp [firstCidsD]⟩
  | cons f t ih =>
    intro i st st' h
    cases f with
    | nextErr => simp [dagLoop] at h
    | badParse => simp [dagLoop] at h
    | nodes nds =>
      cases nds with
      | nil => simp [dagLoop] at h
      | cons c cs =>
        have hemit : (stageNodes oc.addOk (c :: cs) (push st (Ev.parse i))).2.emitted
            = st.emitted :=
          stageNodes_emitted oc.addOk (c :: cs) (push st (Ev.parse i))
        simp only [dagLoop] at h
        cases hq : (stageNodes oc.addOk (c :: cs) (push st (Ev.parse i))).1 with
        | some err =>
          rw [hq] at h
          replace h : (LoopRes.failed err,
              (stageNodes oc.addOk (c :: cs) (push st (Ev.parse i))).2)
              = (LoopRes.done, st') := h
          simp at h
        | none =>
          rw [hq] at h
          replace h : (if oc.cancel i = true then
              (LoopRes.cancelled,
                { (stageNodes oc.addOk (c :: cs) (push st (Ev.parse i))).2 with
                  cids := addToSet
                    (stageNodes oc.addOk (c :: cs) (push st (Ev.parse i))).2.cids c })
            else dagLoop oc (i + 1) t
              (push { (stageNodes oc.addOk (c :: cs) (push st (Ev.parse i))).2 with
                  cids := addToSet
                    (stageNodes oc.addOk (c :: cs) (push st (Ev.parse i))).2.cids c,
                  emitted := (stageNodes oc.addOk (c :: cs)
                    (push st (Ev.parse i))).2.emitted ++ [c] }
                (Ev.emit c))) = (LoopRes.done, st') := h
          rw [if_neg (by simp [hnc i])] at h
          obtain ⟨h1, h2⟩ := ih (i + 1) _ st' h
          refine ⟨?_, ?_⟩
          · simp only [firstCids, h1, Option.map, firstCidsD]
          · replace h2 : st'.emitted =
                ((stageNodes oc.addOk (c :: cs) (push st (Ev.parse i))).2.emitted ++ [c])
                  ++ firstCidsD t := h2
            rw [hemit] at h2
            rw [h2]
            show st.emitted ++ [c] ++ firstCidsD t = st.emitted ++ (c :: firstCidsD t)
            simp

theorem dagLoop_clean_step (oc : DagOracle) (i c : Nat) (cs : List Nat)
    (fs : List FileOutcome) (st : DagSt) (hall : (c :: cs).all oc.addOk = true)
    (hcan : oc.cancel i = false) :
    dagLoop oc i (FileOutcome.nodes (c :: cs) :: fs) st =
      dagLoop oc (i + 1) fs
        ⟨addToSet st.cids c, st.emitted ++ [c],
          st.trace ++ [Ev.parse i] ++ (c :: cs).map Ev.stage ++ [Ev.emit c]⟩ := by
  simp only [dagLoop, stageNodes_all_ok hall, hcan]
  rfl

theorem firstCids_of_clean {oc : DagOracle} :
    ∀ pre i, cleanUnits oc i pre = true → firstCids pre = some (firstCidsD pre) := by
  intro pre
  induction pre with
  | nil => intro i _; rfl
  | cons u pre' ih =>
    intro i hclean
    cases u with
    | nextErr => simp [cleanUnits] at hclean
    | badParse => simp [cleanUnits] at hclean
    | nodes nds =>
      cases nds with
      | nil => simp [cleanUnits] at hclean
      | cons c cs =>
        simp only [cleanUnits, Bool.and_eq_true] at hclean
        simp only [firstCids, firstCidsD, ih (i + 1) hclean.2, Option.map]

theorem dagLoop_clean (oc : DagOracle) :
    ∀ pre i fs st, cleanUnits oc i pre = true →
      ∃ st', dagLoop oc i (pre ++ fs) st = dagLoop oc (i + pre.length) fs st'
        ∧ st'.emitted = st.emitted ++ firstCidsD pre
        ∧ ∀ e ∈ st'.trace, e ∈ st.trace ∨
            (∃ j, j < i + pre.length ∧ e = Ev.parse j) ∨
            (∃ x, e = Ev.stage x) ∨ (∃ x, e = Ev.emit x) := by
  intro pre
  induction pre with
  | nil =>
    intro i fs st _
    refine ⟨st, ?_, ?_, ?_⟩
    · simp
    · simp [firstCidsD]
    · intro e he; exact Or.inl he
  | cons u pre' ih =>
    intro i fs st hclean
    cases u with
    | nextErr => simp [cleanUnits] at hclean
    | badParse => simp [cleanUnits] at hclean
    | nodes nds =>
      cases nds with
      | nil => simp [cleanUnits] at hclean
      | cons c cs =>
        have hclean2 := hclean
        simp only [cleanUnits, Bool.and_eq_true, Bool.not_eq_true'] at hclean2
        obtain ⟨⟨hall, hcan⟩, hrest⟩ := hclean2
        obtain ⟨st', heq, hemit, htr⟩ := ih (i + 1) fs
          ⟨addToSet st.cids c, st.emitted ++ [c],
            st.trace ++ [Ev.parse i] ++ (c :: cs).map Ev.stage ++ [Ev.emit c]⟩ hrest
        refine ⟨st', ?_, ?_, ?_⟩
        · have hidx : i + (FileOutcome.nodes (c :: cs) :: pre').length
              = (i + 1) + pre'.length := by
            simp [List.length_cons]
            omega
          rw [hidx]
          rw [show (FileOutcome.nodes (c :: cs) :: pre') ++ fs
            = FileOutcome.nodes (c :: cs) :: (pre' ++ fs) from rfl]
          rw [dagLoop_clean_step oc i c cs (pre' ++ fs) st hall hcan]
          exact heq
        · rw [hemit]
          show (st.emitted ++ [c]) ++ firstCidsD pre'
            = st.emitted ++ (c :: firstCidsD pre')
          simp
        · intro e he
          rcases htr e he with h | h | h | h
          · replace h : e ∈ st.trace ++ [Ev.parse i]
                ++ (c :: cs).map Ev.stage ++ [Ev.emit c] := h
            simp only [List.mem_append, List.mem_singleton, List.mem_map] at h
            rcases h with ((h | h) | h) | h
            · exact Or.inl h
            · refine Or.inr (Or.inl ⟨i, ?_, h⟩)
              simp [List.length_cons]
            · obtain ⟨x, _, hx⟩ := h
              exact Or.inr (Or.inr (Or.inl ⟨x, hx.symm⟩))
            · exact Or.inr (Or.inr (Or.inr ⟨c, h⟩))
          · obtain ⟨j, hj, hje⟩ := h
            refine Or.inr (Or.inl ⟨j, ?_, hje⟩)
            simp only [List.length_cons]
            omega
          · exact Or.inr (Or.inr (Or.inl h))
          · exact Or.inr (Or.inr (Or.inr h))

theorem countLocks_map_pinRec (l : List Nat) : countLocks (l.map Ev.pinRec) = 0 := by
  induction l with
  | nil => rfl
  | cons c t ih => simp [countLocks, ih]

theorem countUnlocks_map_pinRec (l : List Nat) : countUnlocks (l.map Ev.pinRec) = 0 := by
  induction l with
  | nil => rfl
  | cons c t ih => simp [countUnlocks, ih]

theorem pinFree_append_producer {xs : List Ev}
    (h : ∀ e ∈ xs, e ∈ ([] : List Ev) ∨ producerEv e = true) (ys : List Ev) :
    pinFree (xs ++ ys) = pinFree ys := by
  induction xs with
  | nil => rfl
  | cons e t ih =>
    have he := h e (List.mem_cons_self e t)
    have ht : ∀ x ∈ t, x ∈ ([] : List Ev) ∨ producerEv x = true :=
      fun x hx => h x (List.mem_cons_of_mem e hx)
    rcases he with he | he
    · simp at he
    · cases e <;> simp [producerEv] at he <;> simp [pinFree, ih ht]

theorem dagLoop_no_cancel {oc : DagOracle} (hnc : ∀ i, oc.cancel i = false) :
    ∀ fs i st, (dagLoop oc i fs st).1 ≠ LoopRes.cancelled := by
  intro fs
  induction fs with
  | nil => intro i st h; simp [dagLoop] at h
  | cons f t ih =>
    intro i st h
    cases f with
    | nextErr => simp [dagLoop] at h
    | badParse => simp [dagLoop] at h
    | nodes nds =>
      cases nds with
      | nil => simp [dagLoop] at h
      | cons c cs =>
        simp only [dagLoop] at h
        cases hq : (stageNodes oc.addOk (c :: cs) (push st (Ev.parse i))).1 with
        | some err =>
          rw [hq] at h
          exact absurd (h : LoopRes.failed err = LoopRes.cancelled) (by simp)
        | none =>
          rw [hq] at h
          replace h : (if oc.cancel i = true then
              (LoopRes.cancelled,
                { (stageNodes oc.addOk (c :: cs) (push st (Ev.parse i))).2 with
                  cids := addToSet
                    (stageNodes oc.addOk (c :: cs) (push st (Ev.parse i))).2.cids c })
            else dagLoop oc (i + 1) t
              (push { (stageNodes oc.addOk (c :: cs) (push st (Ev.parse i))).2 with
                  cids := addToSet
                    (stageNodes oc.addOk (c :: cs) (push st (Ev.parse i))).2.cids c,
                  emitted := (stageNodes oc.addOk (c :: cs)
                    (push st (Ev.parse i))).2.emitted ++ [c] }
                (Ev.emit c))).1 = LoopRes.cancelled := h
          rw [if_neg (by simp [hnc i])] at h
          exact ih (i + 1) _ h

/-- Final state of the pin phase of `addAllAndPin`, relative to the state the
file loop produced. -/
def pinSt (st : DagSt) : DagSt :=
  ⟨st.cids, st.emitted,
    st.trace ++ [Ev.commit] ++ [Ev.lock] ++ st.cids.map Ev.pinRec
      ++ [Ev.flush] ++ [Ev.unlock]⟩

theorem addAllAndPin_shape (oc : DagOracle) (dopin : Bool) (files : List FileOutcome) :
    (∃ e, (dagLoop oc 0 files ⟨[], [], []⟩).1 = LoopRes.failed e ∧
      addAllAndPin oc dopin files
        = (Except.error e, (dagLoop oc 0 files ⟨[], [], []⟩).2)) ∨
    ((dagLoop oc 0 files ⟨[], [], []⟩).1 = LoopRes.cancelled ∧
      addAllAndPin oc dopin files
        = (Except.ok (), (dagLoop oc 0 files ⟨[], [], []⟩).2)) ∨
    ((dagLoop oc 0 files ⟨[], [], []⟩).1 = LoopRes.done ∧ oc.commitOk = false ∧
      addAllAndPin oc dopin files
        = (Except.error DagErr.commitFailed,
           push (dagLoop oc 0 files ⟨[], [], []⟩).2 Ev.commit)) ∨
    ((dagLoop oc 0 files ⟨[], [], []⟩).1 = LoopRes.done ∧ oc.commitOk = true ∧
      dopin = false ∧
      addAllAndPin oc dopin files
        = (Except.ok (), push (dagLoop oc 0 files ⟨[], [], []⟩).2 Ev.commit)) ∨
    ((dagLoop oc 0 files ⟨[], [], []⟩).1 = LoopRes.done ∧ oc.commitOk = true ∧
      dopin = true ∧
      addAllAndPin oc dopin files
        = ((if oc.flushOk then Except.ok () else Except.error DagErr.flushFailed),
           pinSt (dagLoop oc 0 files ⟨[], [], []⟩).2)) := by
  simp only [addAllAndPin]
  cases hl : (dagLoop oc 0 files ⟨[], [], []⟩).1 with
  | failed e => exact Or.inl ⟨e, rfl, rfl⟩
  | cancelled => exact Or.inr (Or.inl ⟨rfl, rfl⟩)
  | done =>
    by_cases hc : oc.commitOk = true
    · by_cases hd : dopin = true
      · refine Or.inr (Or.inr (Or.inr (Or.inr ⟨rfl, hc, hd, ?_⟩)))
        show (if oc.commitOk = true then (if dopin = true then _ else _) else _) = _
        rw [if_pos hc, if_pos hd]
        by_cases hf : oc.flushOk = true
        · rw [if_pos hf, if_pos hf]
          rfl
        · rw [if_neg hf, if_neg hf]
          rfl
      · refine Or.inr (Or.inr (Or.inr (Or.inl ⟨rfl, hc, by simpa using hd, ?_⟩)))
        show (if oc.commitOk = true then (if dopin = true then _ else _) else _) = _
        rw [if_pos hc, if_neg hd]
    · refine Or.inr (Or.inr (Or.inl ⟨rfl, by simpa using hc, ?_⟩))
      show (if oc.commitOk = true then _ else _) = _
      rw [if_neg hc]

/-! ## Claims -/

/-- C10: for every peer ID that is a valid multihash byte string, base58
encoding followed by base58 decoding returns the original ID without error:
`IDB58Decode (IDB58Encode id) = (id, nil)`. -/
theorem c10_idb58_roundtrip (id : List Nat) (hbytes : ∀ b ∈ id, b < 256)
    (hvalid : isValidMultihash id = true) :
    IDB58Decode (IDB58Encode id) = Except.ok id := by
  have hne : id ≠ [] := isValidMultihash_ne_nil hvalid
  unfold IDB58Decode IDB58Encode
  rw [b58_roundtrip id hne hbytes]
  show (if isValidMultihash id = true then Except.ok id
    else Except.error B58Err.invalidMultihash) = Except.ok id
  rw [if_pos hvalid]

/-- Witness for C10 at the concrete multihash `0x12 0x02 0xaa 0xbb`
(sha2-256 code, declared digest length 2, two digest bytes). -/
theorem c10_witness :
    (∀ b ∈ [18, 2, 170, 187], b < 256) ∧
    isValidMultihash [18, 2, 170, 187] = true ∧
    IDB58Decode (IDB58Encode [18, 2, 170, 187]) = Except.ok [18, 2, 170, 187] :=
  ⟨by decide, by decide, c10_idb58_roundtrip [18, 2, 170, 187] (by decide) (by decide)⟩

/-- C1 counterexample: a single input unit that parses to two nodes (CIDs 1
and 2).  The spec's claim says both roots' CIDs are emitted in source
document order; the code emits only `nds[0].Cid()`, so the emitted sequence
is `[1]`, not `[1, 2]`. -/
theorem c1_counterexample :
    ¬ ((dagPutRun ["sha2-256"] "" false
        ⟨true, fun _ => true, fun _ => false, true, true⟩
        [FileOutcome.nodes [1, 2]]).emitted
      = allRootCids [FileOutcome.nodes [1, 2]]) := by
  decide

/-- C1 (amended): every DagPut run that completes without error or
cancellation emits exactly one `{Cid}` per input unit — the CID of the
unit's FIRST parsed node — in input order; the remaining parsed nodes of a
multi-node unit are staged and committed but not emitted. -/
theorem c1_one_cid_per_unit (names : List String) (hash : String) (dopin : Bool)
    (oc : DagOracle) (files : List FileOutcome)
    (hnc : ∀ i, oc.cancel i = false)
    (hok : (dagPutRun names hash dopin oc files).result = Except.ok ()) :
    firstCids files = some ((dagPutRun names hash dopin oc files).emitted) := by
  by_cases hn : oc.nodeOk = true
  case neg =>
    have hrun : dagPutRun names hash dopin oc files
        = ⟨Except.error DagErr.nodeFailed, [], []⟩ := by
      unfold dagPutRun
      rw [if_pos (by simp [hn])]
    rw [hrun] at hok
    exact absurd hok (by simp)
  by_cases hh : hash ≠ "" ∧ hash ∉ names
  case pos =>
    have hrun : dagPutRun names hash dopin oc files
        = ⟨Except.error (DagErr.invalidHashName hash), [], []⟩ := by
      unfold dagPutRun
      rw [if_neg (by simp [hn]), if_pos hh]
    rw [hrun] at hok
    exact absurd hok (by simp)
  have hrun : dagPutRun names hash dopin oc files
      = ⟨(addAllAndPin oc dopin files).1, (addAllAndPin oc dopin files).2.emitted,
        (addAllAndPin oc dopin files).2.trace⟩ := by
    unfold dagPutRun
    rw [if_neg (by simp [hn]), if_neg hh]
  rw [hrun] at hok ⊢
  rcases addAllAndPin_shape oc dopin files with
    ⟨e, hl, heq⟩ | ⟨hl, heq⟩ | ⟨hl, hc, heq⟩ | ⟨hl, hc, hd, heq⟩ | ⟨hl, hc, hd, heq⟩
  · replace hok : (addAllAndPin oc dopin files).1 = Except.ok () := hok
    rw [heq] at hok
    exact absurd hok (by simp)
  · exact absurd hl (dagLoop_no_cancel hnc files 0 _)
  · replace hok : (addAllAndPin oc dopin files).1 = Except.ok () := hok
    rw [heq] at hok
    exact absurd hok (by simp)
  · have hpair : dagLoop oc 0 files ⟨[], [], []⟩
        = (LoopRes.done, (dagLoop oc 0 files ⟨[], [], []⟩).2) := by
      rw [← hl]
    obtain ⟨h1, h2⟩ := dagLoop_done_emitted oc hnc files 0 ⟨[], [], []⟩ _ hpair
    show firstCids files = some ((addAllAndPin oc dopin files).2.emitted)
    rw [heq]
    show firstCids files = some ((dagLoop oc 0 files ⟨[], [], []⟩).2.emitted)
    rw [h1, h2]
    simp
  · by_cases hf : oc.flushOk = true
    · have hpair : dagLoop oc 0 files ⟨[], [], []⟩
          = (LoopRes.done, (dagLoop oc 0 files ⟨[], [], []⟩).2) := by
        rw [← hl]
      obtain ⟨h1, h2⟩ := dagLoop_done_emitted oc hnc files 0 ⟨[], [], []⟩ _ hpair
      show firstCids files = some ((addAllAndPin oc dopin files).2.emitted)
      rw [heq]
      show firstCids files = some ((dagLoop oc 0 files ⟨[], [], []⟩).2.emitted)
      rw [h1, h2]
      simp
    · replace hok : (addAllAndPin oc dopin files).1 = Except.ok () := hok
      rw [heq] at hok
      rw [if_neg hf] at hok
      exact absurd hok (by simp)

/-- Witness for the amended C1: two units, the second parsing to two nodes;
the run emits exactly the first parsed node's CID of each unit, in order. -/
theorem c1_witness :
    (∀ i, (⟨true, fun _ => true, fun _ => false, true, true⟩ : DagOracle).cancel i
      = false) ∧
    (dagPutRun ["sha2-256"] "" false ⟨true, fun _ => true, fun _ => false, true, true⟩
      [FileOutcome.nodes [3], FileOutcome.nodes [1, 2]]).result = Except.ok () ∧
    firstCids [FileOutcome.nodes [3], FileOutcome.nodes [1, 2]]
      = some ((dagPutRun ["sha2-256"] "" false
          ⟨true, fun _ => true, fun _ => false, true, true⟩
          [FileOutcome.nodes [3], FileOutcome.nodes [1, 2]]).emitted) :=
  ⟨fun _ => rfl, rfl,
    c1_one_cid_per_unit ["sha2-256"] "" false
      ⟨true, fun _ => true, fun _ => false, true, true⟩
      [FileOutcome.nodes [3], FileOutcome.nodes [1, 2]] (fun _ => rfl) rfl⟩

/-- C3: a DagPut invocation whose requested hash-function name is not a
known multihash name fails with the invalid-name error before any I/O: no
parsing, staging, persistence access or pin traffic (empty trace) and no
`{Cid}` emitted. -/
theorem c3_unknown_hash_rejected (names : List String) (hash : String) (dopin : Bool)
    (oc : DagOracle) (files : List FileOutcome)
    (hn : oc.nodeOk = true) (hne : hash ≠ "") (hmem : hash ∉ names) :
    dagPutRun names hash dopin oc files
      = ⟨Except.error (DagErr.invalidHashName hash), [], []⟩ := by
  unfold dagPutRun
  rw [if_neg (by simp [hn]), if_pos ⟨hne, hmem⟩]

/-- Witness for C3 with an unknown hash name and a nonempty input list. -/
theorem c3_witness :
    (⟨true, fun _ => true, fun _ => false, true, true⟩ : DagOracle).nodeOk = true ∧
    ("no-such-hash" : String) ≠ "" ∧
    ("no-such-hash" : String) ∉ ["sha2-256", "sha1", "sha2-512"] ∧
    dagPutRun ["sha2-256", "sha1", "sha2-512"] "no-such-hash" true
      ⟨true, fun _ => true, fun _ => false, true, true⟩ [FileOutcome.nodes [9]]
      = ⟨Except.error (DagErr.invalidHashName "no-such-hash"), [], []⟩ :=
  ⟨rfl, by decide, by decide,
    c3_unknown_hash_rejected _ _ true _ [FileOutcome.nodes [9]] rfl (by decide) (by decide)⟩

/-- C5: a UrlAdd invocation whose HTTP GET returns a status other than 200
aborts with the observed status code in the error, before any chunking, DAG
building or pinning (empty trace). -/
theorem c5_non200_aborts (o : UrlOracle) (ut dp : Bool)
    (h1 : o.nodeOk = true) (h2 : o.isUrl = true) (h3 : o.cfgOk = true)
    (h4 : o.enabled = true) (h5 : o.reqOk = true) (h6 : o.doOk = true)
    (hs : o.status ≠ 200) :
    urlAddRun o ut dp = (Except.error (UrlErr.badStatus o.status), []) := by
  unfold urlAddRun
  rw [if_neg (by simp [h1]), if_neg (by simp [h2]), if_neg (by simp [h3]),
    if_neg (by simp [h4]), if_neg (by simp [h5]), if_neg (by simp [h6]), if_pos hs]

/-- Witness for C5 at HTTP status 404. -/
theorem c5_witness :
    urlAddRun ⟨true, true, true, true, true, true, 404, 99, fun _ => Except.ok 7, true⟩
        false true
      = (Except.error (UrlErr.badStatus 404), []) :=
  c5_non200_aborts _ false true rfl rfl rfl rfl rfl rfl (by decide)

set_option maxHeartbeats 1600000 in
/-- C6: every successful UrlAdd returns a `{Cid, Size}` record whose `Size`
equals the content length declared by the HTTP response. -/
theorem c6_size_is_content_length (o : UrlOracle) (ut dp : Bool) (bs : BlockStat)
    (h : (urlAddRun o ut dp).1 = Except.ok bs) : bs.size = o.contentLength := by
  simp only [urlAddRun] at h
  repeat' split at h
  all_goals
    first
      | exact Except.noConfusion h
      | (simp only [Except.ok.injEq] at h; subst h; rfl)

/-- Witness for C6 on a successful run with declared content length 1234. -/
theorem c6_witness :
    (urlAddRun ⟨true, true, true, true, true, true, 200, 1234, fun _ => Except.ok 7, true⟩
        false true).1 = Except.ok ⟨7, 1234⟩ ∧
    (⟨7, 1234⟩ : BlockStat).size
      = (⟨true, true, true, true, true, true, 200, 1234, fun _ => Except.ok 7, true⟩
          : UrlOracle).contentLength :=
  ⟨rfl, c6_size_is_content_length _ false true ⟨7, 1234⟩ rfl⟩

/-- C2: the pin set is mutated iff the pin flag is set: with pin=false the
trace carries no pin-set mutation at all; with pin=true, once a successful
Commit is reached, every emitted root CID is recursively pinned and the pin
set is flushed. -/
theorem c2_pin_iff_flag (names : List String) (hash : String) (dopin : Bool)
    (oc : DagOracle) (files : List FileOutcome) :
    (dopin = false → pinFree (dagPutRun names hash dopin oc files).trace = true) ∧
    (dopin = true → oc.commitOk = true →
      Ev.commit ∈ (dagPutRun names hash dopin oc files).trace →
      (∀ c ∈ (dagPutRun names hash dopin oc files).emitted,
        Ev.pinRec c ∈ (dagPutRun names hash dopin oc files).trace) ∧
      Ev.flush ∈ (dagPutRun names hash dopin oc files).trace) := by
  by_cases hn : oc.nodeOk = true
  case neg =>
    have hrun : dagPutRun names hash dopin oc files
        = ⟨Except.error DagErr.nodeFailed, [], []⟩ := by
      unfold dagPutRun
      rw [if_pos (by simp [hn])]
    rw [hrun]
    exact ⟨fun _ => rfl, fun _ _ hcm => absurd hcm (by simp)⟩
  by_cases hh : hash ≠ "" ∧ hash ∉ names
  case pos =>
    have hrun : dagPutRun names hash dopin oc files
        = ⟨Except.error (DagErr.invalidHashName hash), [], []⟩ := by
      unfold dagPutRun
      rw [if_neg (by simp [hn]), if_pos hh]
    rw [hrun]
    exact ⟨fun _ => rfl, fun _ _ hcm => absurd hcm (by simp)⟩
  have hrun : dagPutRun names hash dopin oc files
      = ⟨(addAllAndPin oc dopin files).1, (addAllAndPin oc dopin files).2.emitted,
        (addAllAndPin oc dopin files).2.trace⟩ := by
    unfold dagPutRun
    rw [if_neg (by simp [hn]), if_neg hh]
  rw [hrun]
  have hprod : ∀ x ∈ (dagLoop oc 0 files ⟨[], [], []⟩).2.trace,
      x ∈ ([] : List Ev) ∨ producerEv x = true :=
    fun x hx => dagLoop_trace oc files 0 ⟨[], [], []⟩ x hx
  rcases addAllAndPin_shape oc dopin files with
    ⟨e, hl, heq⟩ | ⟨hl, heq⟩ | ⟨hl, hcF, heq⟩ | ⟨hl, hcT, hdF, heq⟩ | ⟨hl, hcT, hdT, heq⟩
  · rw [heq]
    exact ⟨fun _ => pinFree_of_producer hprod,
      fun _ _ hcm => absurd (hprod Ev.commit hcm) (by simp [producerEv])⟩
  · rw [heq]
    exact ⟨fun _ => pinFree_of_producer hprod,
      fun _ _ hcm => absurd (hprod Ev.commit hcm) (by simp [producerEv])⟩
  · rw [heq]
    refine ⟨fun _ => ?_, fun _ hcT _ => absurd hcT (by simp [hcF])⟩
    show pinFree ((dagLoop oc 0 files ⟨[], [], []⟩).2.trace ++ [Ev.commit]) = true
    rw [pinFree_append_producer hprod]
    rfl
  · rw [heq]
    refine ⟨fun _ => ?_, fun hdT _ _ => absurd hdT (by simp [hdF])⟩
    show pinFree ((dagLoop oc 0 files ⟨[], [], []⟩).2.trace ++ [Ev.commit]) = true
    rw [pinFree_append_producer hprod]
    rfl
  · rw [heq]
    refine ⟨fun hdF => absurd hdF (by simp [hdT]), fun _ _ _ => ⟨?_, ?_⟩⟩
    · intro c hcmem
      replace hcmem : c ∈ (dagLoop oc 0 files ⟨[], [], []⟩).2.emitted := hcmem
      have hsub := dagLoop_emit_sub oc files 0 ⟨[], [], []⟩
        (fun x hx => absurd hx (by simp)) c hcmem
      show Ev.pinRec c ∈ (dagLoop oc 0 files ⟨[], [], []⟩).2.trace
        ++ [Ev.commit] ++ [Ev.lock]
        ++ (dagLoop oc 0 files ⟨[], [], []⟩).2.cids.map Ev.pinRec
        ++ [Ev.flush] ++ [Ev.unlock]
      simp only [List.mem_append]
      exact Or.inl (Or.inl (Or.inr (List.mem_map_of_mem Ev.pinRec hsub)))
    · show Ev.flush ∈ (dagLoop oc 0 files ⟨[], [], []⟩).2.trace
        ++ [Ev.commit] ++ [Ev.lock]
        ++ (dagLoop oc 0 files ⟨[], [], []⟩).2.cids.map Ev.pinRec
        ++ [Ev.flush] ++ [Ev.unlock]
      simp only [List.mem_append]
      exact Or.inl (Or.inr (by simp))

/-- Witness for C2 with pin=true on an all-good single-unit run:
the emitted CID 5 is recursively pinned and the pin set flushed. -/
theorem c2_witness :
    Ev.commit ∈ (dagPutRun ["sha2-256"] "" true
      ⟨true, fun _ => true, fun _ => false, true, true⟩
      [FileOutcome.nodes [5]]).trace ∧
    ((∀ c ∈ (dagPutRun ["sha2-256"] "" true
        ⟨true, fun _ => true, fun _ => false, true, true⟩
        [FileOutcome.nodes [5]]).emitted,
      Ev.pinRec c ∈ (dagPutRun ["sha2-256"] "" true
        ⟨true, fun _ => true, fun _ => false, true, true⟩
        [FileOutcome.nodes [5]]).trace) ∧
    Ev.flush ∈ (dagPutRun ["sha2-256"] "" true
      ⟨true, fun _ => true, fun _ => false, true, true⟩
      [FileOutcome.nodes [5]]).trace) :=
  ⟨by decide,
    (c2_pin_iff_flag ["sha2-256"] "" true
      ⟨true, fun _ => true, fun _ => false, true, true⟩
      [FileOutcome.nodes [5]]).2 rfl rfl (by decide)⟩

/-- C4: an input unit that parses successfully but yields zero nodes makes
the build abort with the no-nodes error rather than succeed with an empty
result (the units before it having been processed cleanly). -/
theorem c4_zero_nodes_abort (names : List String) (hash : String) (dopin : Bool)
    (oc : DagOracle) (pre rest : List FileOutcome)
    (hn : oc.nodeOk = true) (hh : hash = "" ∨ hash ∈ names)
    (hclean : cleanUnits oc 0 pre = true) :
    (dagPutRun names hash dopin oc (pre ++ FileOutcome.nodes [] :: rest)).result
      = Except.error DagErr.noNodes := by
  obtain ⟨st', heq, hemit, htr⟩ :=
    dagLoop_clean oc pre 0 (FileOutcome.nodes [] :: rest) ⟨[], [], []⟩ hclean
  have hfail : (dagLoop oc 0 (pre ++ FileOutcome.nodes [] :: rest) ⟨[], [], []⟩).1
      = LoopRes.failed DagErr.noNodes := by
    rw [heq]
    simp [dagLoop]
  have hnh : ¬ (hash ≠ "" ∧ hash ∉ names) := by
    rcases hh with h | h
    · simp [h]
    · simp [h]
  have hrun : dagPutRun names hash dopin oc (pre ++ FileOutcome.nodes [] :: rest)
      = ⟨(addAllAndPin oc dopin (pre ++ FileOutcome.nodes [] :: rest)).1,
        (addAllAndPin oc dopin (pre ++ FileOutcome.nodes [] :: rest)).2.emitted,
        (addAllAndPin oc dopin (pre ++ FileOutcome.nodes [] :: rest)).2.trace⟩ := by
    unfold dagPutRun
    rw [if_neg (by simp [hn]), if_neg hnh]
  rw [hrun]
  rcases addAllAndPin_shape oc dopin (pre ++ FileOutcome.nodes [] :: rest) with
    ⟨e, hl, heq2⟩ | ⟨hl, heq2⟩ | ⟨hl, hc, heq2⟩ | ⟨hl, hc, hd, heq2⟩ | ⟨hl, hc, hd, heq2⟩
  · have he : e = DagErr.noNodes := by
      have := hl.symm.trans hfail
      simpa using this
    show (addAllAndPin oc dopin (pre ++ FileOutcome.nodes [] :: rest)).1
      = Except.error DagErr.noNodes
    rw [heq2, he]
  · exact absurd (hl.symm.trans hfail) (by simp)
  · exact absurd (hl.symm.trans hfail) (by simp)
  · exact absurd (hl.symm.trans hfail) (by simp)
  · exact absurd (hl.symm.trans hfail) (by simp)

/-- Witness for C4: a clean first unit, then a unit parsing to zero nodes. -/
theorem c4_witness :
    cleanUnits ⟨true, fun _ => true, fun _ => false, true, true⟩ 0
        [FileOutcome.nodes [3]] = true ∧
    (dagPutRun ["sha2-256"] "" false ⟨true, fun _ => true, fun _ => false, true, true⟩
        ([FileOutcome.nodes [3]] ++ FileOutcome.nodes [] :: [])).result
      = Except.error DagErr.noNodes :=
  ⟨by decide,
    c4_zero_nodes_abort ["sha2-256"] "" false
      ⟨true, fun _ => true, fun _ => false, true, true⟩
      [FileOutcome.nodes [3]] [] rfl (Or.inl rfl) (by decide)⟩

/-- C9: if the caller's context is cancelled while the producer queues a
unit's result, the run still returns ok, the in-flight CID is not emitted
(only the clean prefix's CIDs are), and no later input unit is processed
(no parse event past the cancelled position). -/
theorem c9_cancel_abandons (names : List String) (hash : String) (dopin : Bool)
    (oc : DagOracle) (pre : List FileOutcome) (c : Nat) (cs : List Nat)
    (rest : List FileOutcome)
    (hn : oc.nodeOk = true) (hh : hash = "" ∨ hash ∈ names)
    (hclean : cleanUnits oc 0 pre = true)
    (hall : (c :: cs).all oc.addOk = true)
    (hcan : oc.cancel pre.length = true) :
    (dagPutRun names hash dopin oc
        (pre ++ FileOutcome.nodes (c :: cs) :: rest)).result = Except.ok () ∧
    firstCids pre = some ((dagPutRun names hash dopin oc
        (pre ++ FileOutcome.nodes (c :: cs) :: rest)).emitted) ∧
    (∀ j, Ev.parse j ∈ (dagPutRun names hash dopin oc
        (pre ++ FileOutcome.nodes (c :: cs) :: rest)).trace → j ≤ pre.length) := by
  obtain ⟨st', heq, hemit, htr⟩ :=
    dagLoop_clean oc pre 0 (FileOutcome.nodes (c :: cs) :: rest) ⟨[], [], []⟩ hclean
  rw [Nat.zero_add] at heq
  have hstep : dagLoop oc pre.length (FileOutcome.nodes (c :: cs) :: rest) st'
      = (LoopRes.cancelled,
         ⟨addToSet st'.cids c, st'.emitted,
          st'.trace ++ [Ev.parse pre.length] ++ (c :: cs).map Ev.stage⟩) := by
    simp only [dagLoop, stageNodes_all_ok hall, hcan]
    rfl
  have hfull : dagLoop oc 0 (pre ++ FileOutcome.nodes (c :: cs) :: rest) ⟨[], [], []⟩
      = (LoopRes.cancelled,
         ⟨addToSet st'.cids c, st'.emitted,
          st'.trace ++ [Ev.parse pre.length] ++ (c :: cs).map Ev.stage⟩) :=
    heq.trans hstep
  have h1 : (dagLoop oc 0 (pre ++ FileOutcome.nodes (c :: cs) :: rest) ⟨[], [], []⟩).1
      = LoopRes.cancelled := by
    rw [hfull]
  have h2 : (dagLoop oc 0 (pre ++ FileOutcome.nodes (c :: cs) :: rest) ⟨[], [], []⟩).2
      = ⟨addToSet st'.cids c, st'.emitted,
         st'.trace ++ [Ev.parse pre.length] ++ (c :: cs).map Ev.stage⟩ := by
    rw [hfull]
  have hnh : ¬ (hash ≠ "" ∧ hash ∉ names) := by
    rcases hh with h | h
    · simp [h]
    · simp [h]
  have hrun : dagPutRun names hash dopin oc (pre ++ FileOutcome.nodes (c :: cs) :: rest)
      = ⟨(addAllAndPin oc dopin (pre ++ FileOutcome.nodes (c :: cs) :: rest)).1,
        (addAllAndPin oc dopin (pre ++ FileOutcome.nodes (c :: cs) :: rest)).2.emitted,
        (addAllAndPin oc dopin (pre ++ FileOutcome.nodes (c :: cs) :: rest)).2.trace⟩ := by
    unfold dagPutRun
    rw [if_neg (by simp [hn]), if_neg hnh]
  rw [hrun]
  rcases addAllAndPin_shape oc dopin (pre ++ FileOutcome.nodes (c :: cs) :: rest) with
    ⟨e, hl, heq2⟩ | ⟨hl, heq2⟩ | ⟨hl, hc, heq2⟩ | ⟨hl, hc, hd, heq2⟩ | ⟨hl, hc, hd, heq2⟩
  · exact absurd (hl.symm.trans h1) (by simp)
  · refine ⟨?_, ?_, ?_⟩
    · show (addAllAndPin oc dopin (pre ++ FileOutcome.nodes (c :: cs) :: rest)).1
        = Except.ok ()
      rw [heq2]
    · show firstCids pre = some
        ((addAllAndPin oc dopin (pre ++ FileOutcome.nodes (c :: cs) :: rest)).2.emitted)
      rw [heq2]
      show firstCids pre = some
        ((dagLoop oc 0 (pre ++ FileOutcome.nodes (c :: cs) :: rest) ⟨[], [], []⟩).2.emitted)
      rw [h2]
      show firstCids pre = some st'.emitted
      rw [hemit, firstCids_of_clean pre 0 hclean]
      simp
    · intro j hj
      replace hj : Ev.parse j
          ∈ (addAllAndPin oc dopin (pre ++ FileOutcome.nodes (c :: cs) :: rest)).2.trace := hj
      rw [heq2] at hj
      replace hj : Ev.parse j
          ∈ (dagLoop oc 0 (pre ++ FileOutcome.nodes (c :: cs) :: rest) ⟨[], [], []⟩).2.trace := hj
      rw [h2] at hj
      replace hj : Ev.parse j
          ∈ st'.trace ++ [Ev.parse pre.length] ++ (c :: cs).map Ev.stage := hj
      simp only [List.mem_append, List.mem_singleton, List.mem_map] at hj
      rcases hj with (h | h) | h
      · rcases htr _ h with h0 | h0 | h0 | h0
        · exact absurd h0 (by simp)
        · obtain ⟨j2, hj2lt, hj2eq⟩ := h0
          have hjj : j = j2 := by
            injection hj2eq
          omega
        · obtain ⟨x, hx⟩ := h0
          exact absurd hx (by simp)
        · obtain ⟨x, hx⟩ := h0
          exact absurd hx (by simp)
      · injection h with h
        omega
      · obtain ⟨x, hx, hxx⟩ := h
        exact absurd hxx (by simp)
  · exact absurd (hl.symm.trans h1) (by simp)
  · exact absurd (hl.symm.trans h1) (by simp)
  · exact absurd (hl.symm.trans h1) (by simp)

/-- Witness for C9: one clean unit, then a unit whose enqueue is cancelled;
only the first unit's CID 3 is emitted and no unit past position 1 is
parsed. -/
theorem c9_witness :
    cleanUnits ⟨true, fun _ => true, fun i => i == 1, true, true⟩ 0
        [FileOutcome.nodes [3]] = true ∧
    (⟨true, fun _ => true, fun i => i == 1, true, true⟩ : DagOracle).cancel
        [FileOutcome.nodes [3]].length = true ∧
    ((dagPutRun ["sha2-256"] "" true ⟨true, fun _ => true, fun i => i == 1, true, true⟩
        ([FileOutcome.nodes [3]] ++ FileOutcome.nodes (7 :: []) :: [FileOutcome.nodes [9]])).result
      = Except.ok () ∧
    firstCids [FileOutcome.nodes [3]]
      = some ((dagPutRun ["sha2-256"] "" true
          ⟨true, fun _ => true, fun i => i == 1, true, true⟩
          ([FileOutcome.nodes [3]] ++ FileOutcome.nodes (7 :: []) :: [FileOutcome.nodes [9]])).emitted) ∧
    (∀ j, Ev.parse j ∈ (dagPutRun ["sha2-256"] "" true
          ⟨true, fun _ => true, fun i => i == 1, true, true⟩
          ([FileOutcome.nodes [3]] ++ FileOutcome.nodes (7 :: []) :: [FileOutcome.nodes [9]])).trace
        → j ≤ [FileOutcome.nodes [3]].length)) :=
  ⟨by decide, by decide,
    c9_cancel_abandons ["sha2-256"] "" true
      ⟨true, fun _ => true, fun i => i == 1, true, true⟩
      [FileOutcome.nodes [3]] 7 [] [FileOutcome.nodes [9]]
      rfl (Or.inl rfl) (by decide) (by decide) (by decide)⟩

set_option maxHeartbeats 1600000 in
/-- C7: in every DagPut and UrlAdd execution, pin-lock acquisitions and
releases balance in the trace — once acquired, the lock is released on every
exit path, including every error return (in particular a Flush failure). -/
theorem c7_lock_released_every_path :
    (∀ (names : List String) (hash : String) (dopin : Bool) (oc : DagOracle)
      (files : List FileOutcome),
      countLocks (dagPutRun names hash dopin oc files).trace
        = countUnlocks (dagPutRun names hash dopin oc files).trace) ∧
    (∀ (o : UrlOracle) (ut dp : Bool),
      countLocks (urlAddRun o ut dp).2 = countUnlocks (urlAddRun o ut dp).2) := by
  constructor
  · intro names hash dopin oc files
    by_cases hn : oc.nodeOk = true
    case neg =>
      have hrun : dagPutRun names hash dopin oc files
          = ⟨Except.error DagErr.nodeFailed, [], []⟩ := by
        unfold dagPutRun
        rw [if_pos (by simp [hn])]
      rw [hrun]
      rfl
    by_cases hh : hash ≠ "" ∧ hash ∉ names
    case pos =>
      have hrun : dagPutRun names hash dopin oc files
          = ⟨Except.error (DagErr.invalidHashName hash), [], []⟩ := by
        unfold dagPutRun
        rw [if_neg (by simp [hn]), if_pos hh]
      rw [hrun]
      rfl
    have hrun : dagPutRun names hash dopin oc files
        = ⟨(addAllAndPin oc dopin files).1, (addAllAndPin oc dopin files).2.emitted,
          (addAllAndPin oc dopin files).2.trace⟩ := by
      unfold dagPutRun
      rw [if_neg (by simp [hn]), if_neg hh]
    rw [hrun]
    have hprod : ∀ x ∈ (dagLoop oc 0 files ⟨[], [], []⟩).2.trace,
        x ∈ ([] : List Ev) ∨ producerEv x = true :=
      fun x hx => dagLoop_trace oc files 0 ⟨[], [], []⟩ x hx
    rcases addAllAndPin_shape oc dopin files with
      ⟨e, hl, heq⟩ | ⟨hl, heq⟩ | ⟨hl, hc, heq⟩ | ⟨hl, hc, hd, heq⟩ | ⟨hl, hc, hd, heq⟩
    · rw [heq]
      show countLocks (dagLoop oc 0 files ⟨[], [], []⟩).2.trace
        = countUnlocks (dagLoop oc 0 files ⟨[], [], []⟩).2.trace
      rw [countLocks_of_producer hprod, countUnlocks_of_producer hprod]
    · rw [heq]
      show countLocks (dagLoop oc 0 files ⟨[], [], []⟩).2.trace
        = countUnlocks (dagLoop oc 0 files ⟨[], [], []⟩).2.trace
      rw [countLocks_of_producer hprod, countUnlocks_of_producer hprod]
    · rw [heq]
      show countLocks ((dagLoop oc 0 files ⟨[], [], []⟩).2.trace ++ [Ev.commit])
        = countUnlocks ((dagLoop oc 0 files ⟨[], [], []⟩).2.trace ++ [Ev.commit])
      rw [countLocks_append, countUnlocks_append,
        countLocks_of_producer hprod, countUnlocks_of_producer hprod]
      decide
    · rw [heq]
      show countLocks ((dagLoop oc 0 files ⟨[], [], []⟩).2.trace ++ [Ev.commit])
        = countUnlocks ((dagLoop oc 0 files ⟨[], [], []⟩).2.trace ++ [Ev.commit])
      rw [countLocks_append, countUnlocks_append,
        countLocks_of_producer hprod, countUnlocks_of_producer hprod]
      decide
    · rw [heq]
      show countLocks ((dagLoop oc 0 files ⟨[], [], []⟩).2.trace
          ++ [Ev.commit] ++ [Ev.lock]
          ++ (dagLoop oc 0 files ⟨[], [], []⟩).2.cids.map Ev.pinRec
          ++ [Ev.flush] ++ [Ev.unlock])
        = countUnlocks ((dagLoop oc 0 files ⟨[], [], []⟩).2.trace
          ++ [Ev.commit] ++ [Ev.lock]
          ++ (dagLoop oc 0 files ⟨[], [], []⟩).2.cids.map Ev.pinRec
          ++ [Ev.flush] ++ [Ev.unlock])
      simp only [countLocks_append, countUnlocks_append,
        countLocks_of_producer hprod, countUnlocks_of_producer hprod,
        countLocks_map_pinRec, countUnlocks_map_pinRec]
      decide
  · intro o ut dp
    simp only [urlAddRun]
    repeat' split
    all_goals
      simp [countLocks, countUnlocks, countLocks_append, countUnlocks_append]

set_option maxHeartbeats 1600000 in
/-- C8: in every DagPut and UrlAdd execution, every pin-set mutation (every
recursive pin and the subsequent flush) occurs while the exclusive pin lock
is held. -/
theorem c8_pins_under_lock :
    (∀ (names : List String) (hash : String) (dopin : Bool) (oc : DagOracle)
      (files : List FileOutcome),
      pinsLocked 0 (dagPutRun names hash dopin oc files).trace = true) ∧
    (∀ (o : UrlOracle) (ut dp : Bool),
      pinsLocked 0 (urlAddRun o ut dp).2 = true) := by
  constructor
  · intro names hash dopin oc files
    by_cases hn : oc.nodeOk = true
    case neg =>
      have hrun : dagPutRun names hash dopin oc files
          = ⟨Except.error DagErr.nodeFailed, [], []⟩ := by
        unfold dagPutRun
        rw [if_pos (by simp [hn])]
      rw [hrun]
      rfl
    by_cases hh : hash ≠ "" ∧ hash ∉ names
    case pos =>
      have hrun : dagPutRun names hash dopin oc files
          = ⟨Except.error (DagErr.invalidHashName hash), [], []⟩ := by
        unfold dagPutRun
        rw [if_neg (by simp [hn]), if_pos hh]
      rw [hrun]
      rfl
    have hrun : dagPutRun names hash dopin oc files
        = ⟨(addAllAndPin oc dopin files).1, (addAllAndPin oc dopin files).2.emitted,
          (addAllAndPin oc dopin files).2.trace⟩ := by
      unfold dagPutRun
      rw [if_neg (by simp [hn]), if_neg hh]
    rw [hrun]
    have hprod : ∀ x ∈ (dagLoop oc 0 files ⟨[], [], []⟩).2.trace,
        x ∈ ([] : List Ev) ∨ producerEv x = true :=
      fun x hx => dagLoop_trace oc files 0 ⟨[], [], []⟩ x hx
    have hbase : pinsLocked 0 (dagLoop oc 0 files ⟨[], [], []⟩).2.trace = true := by
      have h := pinsLocked_append_producer hprod 0 []
      rw [List.append_nil] at h
      rw [h]
      rfl
    rcases addAllAndPin_shape oc dopin files with
      ⟨e, hl, heq⟩ | ⟨hl, heq⟩ | ⟨hl, hc, heq⟩ | ⟨hl, hc, hd, heq⟩ | ⟨hl, hc, hd, heq⟩
    · rw [heq]
      exact hbase
    · rw [heq]
      exact hbase
    · rw [heq]
      show pinsLocked 0 ((dagLoop oc 0 files ⟨[], [], []⟩).2.trace ++ [Ev.commit]) = true
      rw [pinsLocked_append_producer hprod]
      rfl
    · rw [heq]
      show pinsLocked 0 ((dagLoop oc 0 files ⟨[], [], []⟩).2.trace ++ [Ev.commit]) = true
      rw [pinsLocked_append_producer hprod]
      rfl
    · rw [heq]
      show pinsLocked 0 ((dagLoop oc 0 files ⟨[], [], []⟩).2.trace
          ++ [Ev.commit] ++ [Ev.lock]
          ++ (dagLoop oc 0 files ⟨[], [], []⟩).2.cids.map Ev.pinRec
          ++ [Ev.flush] ++ [Ev.unlock]) = true
      simp only [List.append_assoc]
      rw [pinsLocked_append_producer hprod]
      show pinsLocked 1 ((dagLoop oc 0 files ⟨[], [], []⟩).2.cids.map Ev.pinRec
        ++ ([Ev.flush] ++ [Ev.unlock])) = true
      exact pinsLocked_pins _ (by decide) (by rfl)
  · intro o ut dp
    simp only [urlAddRun]
    repeat' split
    all_goals
      simp [pinsLocked]

end Spec2Proof
